import Mathlib

/-!
Verification of the `anycache` package: a mutex-guarded generic in-memory
key/value store (`pkg/anycache/anycache.go`). The embedding below renders the
store's data model and its five public operations (`New`, `Set`, `Get`,
`Keys`, `Flush`, `Len`) as pure Lean functions, together with a small
call-sequence semantics (`Op`, `step`, `run`) used to state temporal
properties about sequences of calls.
-/

set_option autoImplicit false

namespace Anycache

/-- A value of Go's dynamic type `any`, as the cache uses it for keys and
values (`map[any]any`): `nil`, primitive values, and function values
(`fn`), whose dynamic type does not support `==` or hashing in Go. -/
inductive GoVal where
  | nil
  | int (n : Int)
  | str (s : String)
  | bool (b : Bool)
  | fn (id : Nat)
deriving DecidableEq, Repr

/-- Whether a value's dynamic type supports `==` and hashing in Go. Function
values do not: using one as a map key panics at run time, as the
repository's example program notes on its commented-out
`ac.Set(incmpUser{...}, "panic")` call. -/
def GoVal.comparable : GoVal → Bool
  | .fn _ => false
  | _ => true

/-- The run-time panic Go raises when hashing a map key whose dynamic type
is not comparable ("hash of unhashable type"). -/
inductive GoPanic where
  | unhashableKey
deriving DecidableEq, Repr

/-- The contents of the cache's `map[any]any`, as an association list with
at most one entry per key (list order stands in for Go's unspecified map
iteration order). -/
abbrev GoMap := List (GoVal × GoVal)

/-- Go map read `m[k]`: the value stored for `k`, if any. -/
def mapLookup : GoMap → GoVal → Option GoVal
  | [], _ => none
  | (k', v') :: rest, k => if k' = k then some v' else mapLookup rest k

/-- Go map write `m[k] = v`: replace the entry for `k` in place, or append
a fresh one. -/
def mapInsert : GoMap → GoVal → GoVal → GoMap
  | [], k, v => [(k, v)]
  | (k', v') :: rest, k, v =>
    if k' = k then (k, v) :: rest else (k', v') :: mapInsert rest k v

/-- The two package errors of `anycache.go`. -/
inductive CacheError where
  | errMinCacheSize
  | errMaxCacheSize
deriving DecidableEq, Repr

/-- The message text carried by each package error. -/
def CacheError.message : CacheError → String
  | .errMinCacheSize => "please provide a cache capacity greater than or equal to 1"
  | .errMaxCacheSize => "error: requested cache capacity too large, must be < 524,288,000 (100MB)"

/-- `const maxCacheSize = 5 * 100 * 1024 * 1024`. -/
def maxCacheSize : Int := 5 * 100 * 1024 * 1024

/-- `AnyCache` holds the map contents. The `sync.Mutex` field of the Go
struct serialises concurrent calls and has no sequential content, so it
does not appear in the state. -/
structure AnyCache where
  items : GoMap
deriving DecidableEq, Repr

/-- `Item` is a record in the cache: a `(Key, Value)` pair. -/
structure Item where
  Key : GoVal
  Value : GoVal
deriving DecidableEq, Repr

/-- The zero value `Item{}` that `Get` returns on a miss: both fields are
the zero value of `any`, which is `nil`. -/
def Item.zero : Item := ⟨GoVal.nil, GoVal.nil⟩

/-- `New(capacity)`: rejects `capacity >= maxCacheSize` first, then
`capacity < 1`; otherwise returns a cache whose map is empty (the capacity
argument only pre-sizes the map allocation). -/
def New (capacity : Int) : Except CacheError AnyCache :=
  if capacity ≥ maxCacheSize then .error .errMaxCacheSize
  else if capacity < 1 then .error .errMinCacheSize
  else .ok ⟨[]⟩

/-- `Set(key, value)`: records whether an entry for `key` was present,
stores `value` under `key`, and returns the new `Item` together with the
`overwritten` flag and the updated cache state. Hashing an incomparable
key panics. -/
def AnyCache.Set (ac : AnyCache) (key value : GoVal) :
    Except GoPanic (Item × Bool × AnyCache) :=
  if key.comparable then
    let overwritten := (mapLookup ac.items key).isSome
    .ok (⟨key, value⟩, overwritten, ⟨mapInsert ac.items key value⟩)
  else
    .error .unhashableKey

/-- `Get(key)`: returns `(Item{}, false)` when `key` is absent, and
`(Item{key, value}, true)` when present. Hashing an incomparable key
panics. -/
def AnyCache.Get (ac : AnyCache) (key : GoVal) : Except GoPanic (Item × Bool) :=
  if key.comparable then
    match mapLookup ac.items key with
    | none => .ok (Item.zero, false)
    | some v => .ok (⟨key, v⟩, true)
  else
    .error .unhashableKey

/-- `Keys()`: the keys currently stored, copied out of the map. -/
def AnyCache.Keys (ac : AnyCache) : List GoVal := ac.items.map Prod.fst

/-- `Flush()`: `clear(ac.items)`. -/
def AnyCache.Flush (ac : AnyCache) : AnyCache := ⟨[]⟩

/-- `Len()`: `len(ac.items)`. -/
def AnyCache.Len (ac : AnyCache) : Nat := ac.items.length

/-- One public call on an existing cache, for reasoning about call
sequences. -/
inductive Op where
  | set (k v : GoVal)
  | get (k : GoVal)
  | keys
  | flush
  | len
deriving DecidableEq, Repr

/-- The cache state after one call: `Get`, `Keys` and `Len` write nothing
(in the Go source they even take the receiver by value and never assign to
`items`); `Set` and `Flush` update the map; a `Set` or `Get` whose key is
incomparable panics. -/
def step (s : AnyCache) : Op → Except GoPanic AnyCache
  | .set k v => (s.Set k v).map fun r => r.2.2
  | .get k => (s.Get k).map fun _ => s
  | .keys => .ok s
  | .flush => .ok s.Flush
  | .len => .ok s

/-- Run a sequence of calls, threading the cache state; stops at the first
panic. -/
def run : AnyCache → List Op → Except GoPanic AnyCache
  | s, [] => .ok s
  | s, op :: rest =>
    match step s op with
    | .ok s' => run s' rest
    | .error e => .error e

/-- The keys of a reachable cache state are pairwise distinct. -/
def WF (s : AnyCache) : Prop := (s.items.map Prod.fst).Nodup

/-! ### Association-list lemmas -/

theorem mapLookup_mapInsert (m : GoMap) (k₁ k₂ v : GoVal) :
    mapLookup (mapInsert m k₁ v) k₂ =
      if k₁ = k₂ then some v else mapLookup m k₂ := by
  induction m with
  | nil => simp [mapInsert, mapLookup]
  | cons p rest ih =>
    obtain ⟨k', v'⟩ := p
    by_cases h1 : k' = k₁
    · subst h1
      simp [mapInsert, mapLookup]
      by_cases h2 : k' = k₂ <;> simp [h2]
    · simp [mapInsert, h1, mapLookup]
      by_cases h2 : k' = k₂
      · subst h2
        have : ¬ k₁ = k' := fun h => h1 h.symm
        simp [this]
      · simp [h2, ih]

theorem keys_mapInsert (m : GoMap) (k v : GoVal) :
    (mapInsert m k v).map Prod.fst =
      if (mapLookup m k).isSome then m.map Prod.fst
      else m.map Prod.fst ++ [k] := by
  induction m with
  | nil => simp [mapInsert, mapLookup]
  | cons p rest ih =>
    obtain ⟨k', v'⟩ := p
    by_cases h1 : k' = k
    · subst h1
      simp [mapInsert, mapLookup]
    · simp [mapInsert, h1, mapLookup, ih]
      by_cases h2 : (mapLookup rest k).isSome <;> simp [h2]

theorem mem_keys_iff (m : GoMap) (k : GoVal) :
    k ∈ m.map Prod.fst ↔ (mapLookup m k).isSome = true := by
  induction m with
  | nil => simp [mapLookup]
  | cons p rest ih =>
    obtain ⟨k', v'⟩ := p
    by_cases h1 : k' = k
    · subst h1
      simp [mapLookup]
    · have : ¬ k = k' := fun h => h1 h.symm
      simp [mapLookup, h1, this, ih]

theorem length_mapInsert (m : GoMap) (k v : GoVal) :
    (mapInsert m k v).length =
      if (mapLookup m k).isSome then m.length else m.length + 1 := by
  induction m with
  | nil => simp [mapInsert, mapLookup]
  | cons p rest ih =>
    obtain ⟨k', v'⟩ := p
    by_cases h1 : k' = k
    · subst h1
      simp [mapInsert, mapLookup]
    · simp only [mapInsert, h1, if_false, mapLookup, List.length_cons, ih]
      by_cases h2 : (mapLookup rest k).isSome <;> simp [h2]

theorem nodup_keys_mapInsert (m : GoMap) (k v : GoVal)
    (h : (m.map Prod.fst).Nodup) : ((mapInsert m k v).map Prod.fst).Nodup := by
  rw [keys_mapInsert]
  by_cases hp : (mapLookup m k).isSome
  · simpa [hp] using h
  · have hk : k ∉ m.map Prod.fst := by
      rw [mem_keys_iff]
      simpa using hp
    simp only [hp, if_false]
    refine List.Nodup.append h (List.nodup_singleton k) ?_
    intro a ha hak
    rw [List.mem_singleton] at hak
    exact hk (hak ▸ ha)

/-! ### Elimination lemmas for the operations -/

theorem Set_ok_elim (s s' : AnyCache) (k v : GoVal) (it : Item) (b : Bool)
    (h : s.Set k v = .ok (it, b, s')) :
    k.comparable = true ∧ it = ⟨k, v⟩ ∧ b = (mapLookup s.items k).isSome ∧
      s' = ⟨mapInsert s.items k v⟩ := by
  unfold AnyCache.Set at h
  by_cases hk : k.comparable
  · simp only [hk, if_true, Except.ok.injEq, Prod.mk.injEq] at h
    exact ⟨hk, h.1.symm, h.2.1.symm, h.2.2.symm⟩
  · simp [hk] at h

theorem Get_miss (s : AnyCache) (k : GoVal) (hk : k.comparable = true)
    (h : mapLookup s.items k = none) : s.Get k = .ok (Item.zero, false) := by
  simp [AnyCache.Get, hk, h]

theorem Get_hit (s : AnyCache) (k v : GoVal) (hk : k.comparable = true)
    (h : mapLookup s.items k = some v) : s.Get k = .ok (⟨k, v⟩, true) := by
  simp [AnyCache.Get, hk, h]

theorem run_cons_elim (s : AnyCache) (op : Op) (rest : List Op) (s' : AnyCache)
    (h : run s (op :: rest) = .ok s') :
    ∃ s₁, step s op = .ok s₁ ∧ run s₁ rest = .ok s' := by
  unfold run at h
  cases hst : step s op with
  | ok s₁ => rw [hst] at h; exact ⟨s₁, rfl, h⟩
  | error e => rw [hst] at h; cases h

theorem run_nil_elim (s s' : AnyCache) (h : run s [] = .ok s') : s' = s := by
  unfold run at h
  cases h
  rfl

/-- Generic preservation of a state predicate along a run, given one-step
preservation for the operations that actually occur. -/
theorem run_preserves (P : AnyCache → Prop) (ops : List Op)
    (hP : ∀ s op s', op ∈ ops → step s op = .ok s' → P s → P s') :
    ∀ s s', run s ops = .ok s' → P s → P s' := by
  induction ops with
  | nil =>
    intro s s' h hp
    rw [run_nil_elim s s' h]
    exact hp
  | cons op rest ih =>
    intro s s' h hp
    obtain ⟨s₁, hst, hrun⟩ := run_cons_elim s op rest s' h
    exact ih (fun t o t' hm => hP t o t' (List.mem_cons_of_mem _ hm)) s₁ s' hrun
      (hP s op s₁ (List.mem_cons_self _ _) hst hp)

/-- A step whose operation is not a `set` of key `k` keeps `k` absent
(`flush` keeps every key absent). -/
theorem step_lookup_none (s s' : AnyCache) (op : Op) (k : GoVal)
    (h : step s op = .ok s') (hop : ∀ w, op ≠ Op.set k w)
    (h0 : mapLookup s.items k = none) : mapLookup s'.items k = none := by
  cases op with
  | set k' w =>
    simp only [step] at h
    cases hS : s.Set k' w with
    | ok r =>
      rw [hS] at h
      simp only [Except.map, Except.ok.injEq] at h
      obtain ⟨_, _, hb, hs'⟩ := Set_ok_elim s r.2.2 k' w r.1 r.2.1 (by rw [hS])
      have hkk : k' ≠ k := fun he => hop w (by rw [he])
      rw [← h, hs']
      simpa [mapLookup_mapInsert, hkk] using h0
    | error e => rw [hS] at h; cases h
  | get k' =>
    simp only [step] at h
    cases hG : s.Get k' with
    | ok r => rw [hG] at h; simp only [Except.map, Except.ok.injEq] at h; rw [← h]; exact h0
    | error e => rw [hG] at h; cases h
  | keys => cases h; exact h0
  | flush => cases h; rfl
  | len => cases h; exact h0

/-- A step that is neither a `flush` nor a `set` of key `k` leaves the
entry for `k` unchanged. -/
theorem step_lookup_pres (s s' : AnyCache) (op : Op) (k : GoVal)
    (h : step s op = .ok s') (hop : ∀ w, op ≠ Op.set k w) (hfl : op ≠ Op.flush) :
    mapLookup s'.items k = mapLookup s.items k := by
  cases op with
  | set k' w =>
    simp only [step] at h
    cases hS : s.Set k' w with
    | ok r =>
      rw [hS] at h
      simp only [Except.map, Except.ok.injEq] at h
      obtain ⟨_, _, hb, hs'⟩ := Set_ok_elim s r.2.2 k' w r.1 r.2.1 (by rw [hS])
      have hkk : k' ≠ k := fun he => hop w (by rw [he])
      rw [← h, hs']
      simp [mapLookup_mapInsert, hkk]
    | error e => rw [hS] at h; cases h
  | get k' =>
    simp only [step] at h
    cases hG : s.Get k' with
    | ok r => rw [hG] at h; simp only [Except.map, Except.ok.injEq] at h; rw [← h]
    | error e => rw [hG] at h; cases h
  | keys => cases h; rfl
  | flush => exact absurd rfl hfl
  | len => cases h; rfl

/-- Every step keeps the keys of the map pairwise distinct. -/
theorem step_WF (s s' : AnyCache) (op : Op) (h : step s op = .ok s')
    (hwf : WF s) : WF s' := by
  cases op with
  | set k' w =>
    simp only [step] at h
    cases hS : s.Set k' w with
    | ok r =>
      rw [hS] at h
      simp only [Except.map, Except.ok.injEq] at h
      obtain ⟨_, _, hb, hs'⟩ := Set_ok_elim s r.2.2 k' w r.1 r.2.1 (by rw [hS])
      rw [← h, hs']
      exact nodup_keys_mapInsert _ _ _ hwf
    | error e => rw [hS] at h; cases h
  | get k' =>
    simp only [step] at h
    cases hG : s.Get k' with
    | ok r => rw [hG] at h; simp only [Except.map, Except.ok.injEq] at h; rw [← h]; exact hwf
    | error e => rw [hG] at h; cases h
  | keys => cases h; exact hwf
  | flush => cases h; simp [WF, AnyCache.Flush]
  | len => cases h; exact hwf

theorem New_ok_elim (c : Int) (s₀ : AnyCache) (h : New c = .ok s₀) :
    s₀ = ⟨[]⟩ := by
  unfold New at h
  split_ifs at h with h1 h2
  all_goals cases h
  rfl

/-! ### The claims -/

/-- Claim C1: `Set` returns the record of this call's arguments (the new
value, never the old) together with an overwrite flag that is true exactly
when an entry for the key existed immediately before the call (equivalently:
when a `Get` of the key on the prior state hits); afterwards the key reads
back as the new value. -/
theorem set_overwrite_flag (s s' : AnyCache) (k v : GoVal) (it : Item) (b : Bool)
    (h : s.Set k v = .ok (it, b, s')) :
    it = ⟨k, v⟩ ∧ (b = true ↔ ∃ it₀, s.Get k = .ok (it₀, true)) ∧
      s'.Get k = .ok (⟨k, v⟩, true) := by
  obtain ⟨hk, hit, hb, hs'⟩ := Set_ok_elim s s' k v it b h
  refine ⟨hit, ?_, ?_⟩
  · cases hL : mapLookup s.items k with
    | none =>
      rw [hb, hL, Get_miss s k hk hL]
      simp
    | some w =>
      rw [hb, hL, Get_hit s k w hk hL]
      simp only [Option.isSome_some, true_iff]
      exact ⟨⟨k, w⟩, rfl⟩
  · rw [hs']
    exact Get_hit _ k v hk (by simp [mapLookup_mapInsert])

/-- Witness for C1 at a concrete overwrite. -/
theorem set_overwrite_flag_witness :
    Item.mk (GoVal.str "a") (GoVal.int 2) = Item.mk (GoVal.str "a") (GoVal.int 2) ∧
    (true = true ↔ ∃ it₀,
      (AnyCache.mk [(GoVal.str "a", GoVal.int 1)]).Get (GoVal.str "a") = .ok (it₀, true)) ∧
    (AnyCache.mk [(GoVal.str "a", GoVal.int 2)]).Get (GoVal.str "a") =
      .ok (Item.mk (GoVal.str "a") (GoVal.int 2), true) :=
  set_overwrite_flag (AnyCache.mk [(GoVal.str "a", GoVal.int 1)])
    (AnyCache.mk [(GoVal.str "a", GoVal.int 2)]) (GoVal.str "a") (GoVal.int 2)
    (Item.mk (GoVal.str "a") (GoVal.int 2)) true rfl

/-- Claim C2: starting from a freshly constructed store, as long as no `Set`
stores key `k`, `Get k` returns the zero record and a miss; after `Set k v`,
as long as no `Flush` and no further `Set` of `k` occurs, `Get k` returns
`(⟨k, v⟩, true)`; and a completed `Get` leaves the store unchanged. -/
theorem get_miss_then_hit (c : Int) (s₀ s₁ sPre sMid s₂ : AnyCache)
    (k v : GoVal) (ops₁ ops₂ : List Op) (it : Item) (b : Bool)
    (hk : k.comparable = true)
    (hnew : New c = .ok s₀)
    (h₁ : run s₀ ops₁ = .ok s₁) (hset₁ : ∀ w, Op.set k w ∉ ops₁)
    (hS : sPre.Set k v = .ok (it, b, sMid))
    (h₂ : run sMid ops₂ = .ok s₂)
    (hset₂ : ∀ w, Op.set k w ∉ ops₂) (hfl : Op.flush ∉ ops₂) :
    s₁.Get k = .ok (Item.zero, false) ∧
    s₂.Get k = .ok (⟨k, v⟩, true) ∧
    step s₁ (Op.get k) = .ok s₁ := by
  have hs₀ : s₀ = ⟨[]⟩ := New_ok_elim c s₀ hnew
  have hnone : mapLookup s₁.items k = none := by
    refine run_preserves (fun t => mapLookup t.items k = none) ops₁ ?_ s₀ s₁ h₁ ?_
    · intro t op t' hm hst hp
      exact step_lookup_none t t' op k hst (fun w he => hset₁ w (he ▸ hm)) hp
    · rw [hs₀]; rfl
  have hmiss := Get_miss s₁ k hk hnone
  have hsome : mapLookup s₂.items k = some v := by
    obtain ⟨_, _, hb, hsMid⟩ := Set_ok_elim sPre sMid k v it b hS
    have hmid : mapLookup sMid.items k = some v := by
      rw [hsMid]; simp [mapLookup_mapInsert]
    refine run_preserves (fun t => mapLookup t.items k = some v) ops₂ ?_ sMid s₂ h₂ hmid
    intro t op t' hm hst hp
    rw [step_lookup_pres t t' op k hst (fun w he => hset₂ w (he ▸ hm))
      (fun he => hfl (he ▸ hm))]
    exact hp
  exact ⟨hmiss, Get_hit s₂ k v hk hsome, by simp [step, hmiss, Except.map]⟩

/-- Witness for C2: a fresh store misses, and after one `Set` the key hits. -/
theorem get_miss_then_hit_witness :
    (AnyCache.mk []).Get (GoVal.str "a") = .ok (Item.zero, false) ∧
    (AnyCache.mk [(GoVal.str "a", GoVal.int 1)]).Get (GoVal.str "a") =
      .ok (Item.mk (GoVal.str "a") (GoVal.int 1), true) ∧
    step (AnyCache.mk []) (Op.get (GoVal.str "a")) = .ok (AnyCache.mk []) :=
  get_miss_then_hit 10 (AnyCache.mk []) (AnyCache.mk []) (AnyCache.mk [])
    (AnyCache.mk [(GoVal.str "a", GoVal.int 1)])
    (AnyCache.mk [(GoVal.str "a", GoVal.int 1)])
    (GoVal.str "a") (GoVal.int 1) [] []
    (Item.mk (GoVal.str "a") (GoVal.int 1)) false
    rfl rfl rfl (fun w => List.not_mem_nil _) rfl rfl
    (fun w => List.not_mem_nil _) (List.not_mem_nil _)

/-- Claim C3: `New` fails with the minimum-capacity error exactly when the
requested capacity is below 1, fails with the maximum-capacity error exactly
when it is at least `maxCacheSize = 524288000` (an exclusive upper bound),
and otherwise succeeds with an empty store of length zero. -/
theorem new_capacity_validation (c : Int) :
    (New c = .error CacheError.errMinCacheSize ↔ c < 1) ∧
    (New c = .error CacheError.errMaxCacheSize ↔ maxCacheSize ≤ c) ∧
    ((∃ s, New c = .ok s ∧ s.Len = 0) ↔ 1 ≤ c ∧ c < maxCacheSize) := by
  have hmax : maxCacheSize = 524288000 := by norm_num [maxCacheSize]
  unfold New
  rw [hmax]
  split_ifs with h1 h2
  · refine ⟨⟨fun he => by simp at he, fun hlt => by omega⟩,
      ⟨fun _ => h1, fun _ => rfl⟩, ⟨fun hex => ?_, fun hc => by omega⟩⟩
    obtain ⟨s, hs, _⟩ := hex
    simp at hs
  · refine ⟨⟨fun _ => h2, fun _ => rfl⟩,
      ⟨fun he => by simp at he, fun hle => by omega⟩,
      ⟨fun hex => ?_, fun hc => by omega⟩⟩
    obtain ⟨s, hs, _⟩ := hex
    simp at hs
  · refine ⟨⟨fun he => by simp at he, fun hlt => by omega⟩,
      ⟨fun he => by simp at he, fun hle => by omega⟩,
      ⟨fun _ => by omega, fun _ => ⟨⟨[]⟩, rfl, rfl⟩⟩⟩

/-- Claim C4: `Flush` leaves the store with length zero, and every later
`Get k` misses until some later `Set` stores `k` again. -/
theorem flush_then_miss (s s' : AnyCache) (k : GoVal) (ops : List Op)
    (hk : k.comparable = true) (hset : ∀ w, Op.set k w ∉ ops)
    (hrun : run s.Flush ops = .ok s') :
    s.Flush.Len = 0 ∧ s'.Get k = .ok (Item.zero, false) := by
  refine ⟨rfl, ?_⟩
  have hnone : mapLookup s'.items k = none := by
    refine run_preserves (fun t => mapLookup t.items k = none) ops ?_ _ _ hrun rfl
    intro t op t' hm hst hp
    exact step_lookup_none t t' op k hst (fun w he => hset w (he ▸ hm)) hp
  exact Get_miss s' k hk hnone

/-- Witness for C4 on a one-entry store. -/
theorem flush_then_miss_witness :
    (AnyCache.mk [(GoVal.str "a", GoVal.int 1)]).Flush.Len = 0 ∧
    (AnyCache.mk []).Get (GoVal.str "a") = .ok (Item.zero, false) :=
  flush_then_miss (AnyCache.mk [(GoVal.str "a", GoVal.int 1)]) (AnyCache.mk [])
    (GoVal.str "a") [] rfl (fun w => List.not_mem_nil _) rfl

/-- Claim C5: on any reachable store, `Keys` lists each stored key exactly
once — no duplicates, membership exactly for the keys present — and its
length agrees with `Len`; the returned list is a copy taken from the map,
so later mutation of the store cannot affect it. -/
theorem keys_exact_snapshot (ops : List Op) (s : AnyCache) (k : GoVal)
    (h : run ⟨[]⟩ ops = .ok s) :
    s.Keys.Nodup ∧ (k ∈ s.Keys ↔ (mapLookup s.items k).isSome = true) ∧
      s.Keys.length = s.Len := by
  have hwf : WF s := by
    refine run_preserves WF ops ?_ ⟨[]⟩ s h ?_
    · intro t op t' hm hst hp
      exact step_WF t t' op hst hp
    · simp [WF]
  exact ⟨hwf, mem_keys_iff s.items k, List.length_map _ _⟩

/-- Witness for C5 on a store reached by one `Set`. -/
theorem keys_exact_snapshot_witness :
    (AnyCache.mk [(GoVal.str "a", GoVal.int 1)]).Keys.Nodup ∧
    (GoVal.str "a" ∈ (AnyCache.mk [(GoVal.str "a", GoVal.int 1)]).Keys ↔
      (mapLookup (AnyCache.mk [(GoVal.str "a", GoVal.int 1)]).items
        (GoVal.str "a")).isSome = true) ∧
    (AnyCache.mk [(GoVal.str "a", GoVal.int 1)]).Keys.length =
      (AnyCache.mk [(GoVal.str "a", GoVal.int 1)]).Len :=
  keys_exact_snapshot [Op.set (GoVal.str "a") (GoVal.int 1)]
    (AnyCache.mk [(GoVal.str "a", GoVal.int 1)]) (GoVal.str "a") rfl

/-- Counterexample to Claim C6 as stated: a key whose dynamic type is not
comparable — here a function value — makes `Set` (and `Get`) fail with a
runtime panic, not a compile-time rejection: `any` admits such keys, and
the repository's example program documents this very call as panicking. -/
theorem set_incomparable_key_panics :
    (AnyCache.mk []).Set (GoVal.fn 0) (GoVal.str "panic") =
      .error GoPanic.unhashableKey ∧
    (AnyCache.mk []).Get (GoVal.fn 0) = .error GoPanic.unhashableKey :=
  ⟨rfl, rfl⟩

/-- Claim C6 (amended): for every key whose dynamic type is comparable,
`Set` and `Get` produce no runtime error on any store — a miss is signalled
only by the boolean flag — and `Keys`, `Flush` and `Len` steps never fail
for any store or key whatsoever. -/
theorem comparable_ops_no_error (s : AnyCache) (k v : GoVal)
    (hk : k.comparable = true) :
    (∃ r, s.Set k v = .ok r) ∧ (∃ r, s.Get k = .ok r) ∧
    (∃ t, step s Op.keys = .ok t) ∧ (∃ t, step s Op.flush = .ok t) ∧
    (∃ t, step s Op.len = .ok t) := by
  refine ⟨⟨(⟨k, v⟩, (mapLookup s.items k).isSome, ⟨mapInsert s.items k v⟩), ?_⟩,
    ?_, ⟨s, rfl⟩, ⟨s.Flush, rfl⟩, ⟨s, rfl⟩⟩
  · simp [AnyCache.Set, hk]
  · cases hL : mapLookup s.items k with
    | none => exact ⟨(Item.zero, false), Get_miss s k hk hL⟩
    | some w => exact ⟨(⟨k, w⟩, true), Get_hit s k w hk hL⟩

/-- Witness for the amended C6 at a comparable key. -/
theorem comparable_ops_no_error_witness :
    (∃ r, (AnyCache.mk []).Set (GoVal.int 0) GoVal.nil = .ok r) ∧
    (∃ r, (AnyCache.mk []).Get (GoVal.int 0) = .ok r) ∧
    (∃ t, step (AnyCache.mk []) Op.keys = .ok t) ∧
    (∃ t, step (AnyCache.mk []) Op.flush = .ok t) ∧
    (∃ t, step (AnyCache.mk []) Op.len = .ok t) :=
  comparable_ops_no_error (AnyCache.mk []) (GoVal.int 0) GoVal.nil rfl

/-- Claim C7: the capacity hint is never enforced after construction: on a
store reachable from any valid construction, even once its length has
reached or passed the hint, `Set` still succeeds — and a fresh key grows
the store by one, so it grows without bound. -/
theorem set_no_capacity_enforcement (c : Int) (s₀ s : AnyCache)
    (ops : List Op) (k v : GoVal)
    (hnew : New c = .ok s₀) (hrun : run s₀ ops = .ok s)
    (hk : k.comparable = true) (hfull : c ≤ (s.Len : Int)) :
    ∃ it b s', s.Set k v = .ok (it, b, s') ∧
      (mapLookup s.items k = none → s'.Len = s.Len + 1) := by
  refine ⟨⟨k, v⟩, (mapLookup s.items k).isSome, ⟨mapInsert s.items k v⟩, ?_, ?_⟩
  · simp [AnyCache.Set, hk]
  · intro hnone
    simp [AnyCache.Len, length_mapInsert, hnone]

/-- Witness for C7: a store built with capacity hint 1 already holds two
entries, and a third `Set` still succeeds and grows it. -/
theorem set_no_capacity_enforcement_witness :
    ∃ it b s', (AnyCache.mk [(GoVal.int 1, GoVal.nil), (GoVal.int 2, GoVal.nil)]).Set
        (GoVal.int 3) GoVal.nil = .ok (it, b, s') ∧
      (mapLookup (AnyCache.mk [(GoVal.int 1, GoVal.nil), (GoVal.int 2, GoVal.nil)]).items
          (GoVal.int 3) = none →
        s'.Len = (AnyCache.mk [(GoVal.int 1, GoVal.nil), (GoVal.int 2, GoVal.nil)]).Len + 1) :=
  set_no_capacity_enforcement 1 (AnyCache.mk [])
    (AnyCache.mk [(GoVal.int 1, GoVal.nil), (GoVal.int 2, GoVal.nil)])
    [Op.set (GoVal.int 1) GoVal.nil, Op.set (GoVal.int 2) GoVal.nil]
    (GoVal.int 3) GoVal.nil rfl rfl rfl (by decide)

/-- Claim C8: `Get`, `Keys` and `Len` are read-only — a completed call
leaves the store exactly as it was, hence all later calls see the same
state — and any call that does change the store is a `Set` or a `Flush`. -/
theorem readonly_ops_frame (s s' : AnyCache) (op : Op)
    (h : step s op = .ok s') :
    ((∃ k, op = Op.get k) ∨ op = Op.keys ∨ op = Op.len → s' = s) ∧
    (s' ≠ s → (∃ k v, op = Op.set k v) ∨ op = Op.flush) := by
  cases op with
  | set k v =>
    refine ⟨fun hc => ?_, fun _ => Or.inl ⟨k, v, rfl⟩⟩
    rcases hc with ⟨k', he⟩ | he | he <;> simp at he
  | get k =>
    have hs : s' = s := by
      simp only [step] at h
      cases hG : s.Get k with
      | ok r =>
        rw [hG] at h
        simp only [Except.map, Except.ok.injEq] at h
        exact h.symm
      | error e => rw [hG] at h; cases h
    exact ⟨fun _ => hs, fun hne => absurd hs hne⟩
  | keys =>
    cases h
    exact ⟨fun _ => rfl, fun hne => absurd rfl hne⟩
  | flush =>
    refine ⟨fun hc => ?_, fun _ => Or.inr rfl⟩
    rcases hc with ⟨k', he⟩ | he | he <;> simp at he
  | len =>
    cases h
    exact ⟨fun _ => rfl, fun hne => absurd rfl hne⟩

/-- Witness for C8 on a completed `Keys` call. -/
theorem readonly_ops_frame_witness :
    ((∃ k, Op.keys = Op.get k) ∨ Op.keys = Op.keys ∨ Op.keys = Op.len →
      AnyCache.mk [(GoVal.int 1, GoVal.nil)] = AnyCache.mk [(GoVal.int 1, GoVal.nil)]) ∧
    (AnyCache.mk [(GoVal.int 1, GoVal.nil)] ≠ AnyCache.mk [(GoVal.int 1, GoVal.nil)] →
      (∃ k v, Op.keys = Op.set k v) ∨ Op.keys = Op.flush) :=
  readonly_ops_frame (AnyCache.mk [(GoVal.int 1, GoVal.nil)])
    (AnyCache.mk [(GoVal.int 1, GoVal.nil)]) Op.keys rfl

/-- Claim C10: storing the nil value is distinguishable from absence: after
`Set k nil`, `Get k` is a hit returning `⟨k, nil⟩`, `k` is listed by `Keys`
and counted by `Len` (a fresh key grows the count by one, an existing key
keeps it) — presence depends only on the key having been set, never on the
stored value. -/
theorem set_nil_is_present (s s' : AnyCache) (k : GoVal) (it : Item) (b : Bool)
    (h : s.Set k GoVal.nil = .ok (it, b, s')) :
    s'.Get k = .ok (Item.mk k GoVal.nil, true) ∧ k ∈ s'.Keys ∧ 1 ≤ s'.Len ∧
      (mapLookup s.items k = none → s'.Len = s.Len + 1) ∧
      ((mapLookup s.items k).isSome = true → s'.Len = s.Len) := by
  obtain ⟨hk, hit, hb, hs'⟩ := Set_ok_elim s s' k GoVal.nil it b h
  have hlook : mapLookup s'.items k = some GoVal.nil := by
    rw [hs']
    simp [mapLookup_mapInsert]
  have hmem : k ∈ s'.Keys := (mem_keys_iff s'.items k).mpr (by simp [hlook])
  have hlen : s'.Keys.length = s'.Len := List.length_map _ _
  have hpos : 0 < s'.Keys.length := List.length_pos_of_mem hmem
  refine ⟨Get_hit s' k GoVal.nil hk hlook, hmem, by omega, ?_, ?_⟩
  · intro hnone
    rw [hs']
    simp [AnyCache.Len, length_mapInsert, hnone]
  · intro hsome
    rw [hs']
    simp [AnyCache.Len, length_mapInsert, hsome]

/-- Witness for C10: setting nil under a fresh key on the empty store. -/
theorem set_nil_is_present_witness :
    (AnyCache.mk [(GoVal.str "k", GoVal.nil)]).Get (GoVal.str "k") =
      .ok (Item.mk (GoVal.str "k") GoVal.nil, true) ∧
    GoVal.str "k" ∈ (AnyCache.mk [(GoVal.str "k", GoVal.nil)]).Keys ∧
    1 ≤ (AnyCache.mk [(GoVal.str "k", GoVal.nil)]).Len ∧
    (mapLookup (AnyCache.mk []).items (GoVal.str "k") = none →
      (AnyCache.mk [(GoVal.str "k", GoVal.nil)]).Len = (AnyCache.mk []).Len + 1) ∧
    ((mapLookup (AnyCache.mk []).items (GoVal.str "k")).isSome = true →
      (AnyCache.mk [(GoVal.str "k", GoVal.nil)]).Len = (AnyCache.mk []).Len) :=
  set_nil_is_present (AnyCache.mk []) (AnyCache.mk [(GoVal.str "k", GoVal.nil)])
    (GoVal.str "k") (Item.mk (GoVal.str "k") GoVal.nil) false rfl

end Anycache
